import Mathlib

/-!
Verification development for the Python-Optimization repository.

The repository's script (`linear_prog.py`) builds a diet-selection
mixed-integer linear program and delegates its solution to an external
library.  The specification describes the engine that the script relies
on: a generic `Model` of linear/mixed-integer programs, a two-phase
tableau simplex solver for the continuous relaxation, and a
branch-and-bound driver enforcing integrality.  That engine is not part
of the repository's source, so it is modelled here from the
specification; the script's own model construction and reporting steps
are embedded directly from the source.

All arithmetic is over `ℚ`; the specification's numerical tolerance `ε`
is kept as an explicit configuration parameter.
-/

namespace LinProg

/-- Modelled from the spec (§3): a variable's domain kind. -/
inductive DomainKind where
  | Continuous
  | Integer
  | Binary
deriving DecidableEq, Repr

/-- Modelled from the spec (§3): a variable with optional bounds
(`none` stands for −∞ / +∞) and a domain kind. -/
structure VarSpec where
  lb : Option ℚ
  ub : Option ℚ
  kind : DomainKind
deriving DecidableEq, Repr

/-- Modelled from the spec (§3): comparison relation of a constraint. -/
inductive Rel where
  | le
  | ge
  | eq
deriving DecidableEq, Repr

/-- Modelled from the spec (§3): a constraint `Σ coeffs·x + const REL rhs`.
Coefficients are indexed by the model's variable order. -/
structure Constr where
  coeffs : List ℚ
  const : ℚ
  rel : Rel
  rhs : ℚ
deriving DecidableEq, Repr

/-- Modelled from the spec (§3): objective direction. -/
inductive Direction where
  | Minimize
  | Maximize
deriving DecidableEq, Repr

/-- Modelled from the spec (§3): a model of a linear / mixed-integer
program: direction, objective (coefficients plus constant offset),
constraints, and the registered variables (ids parallel to specs). -/
structure Model where
  direction : Direction
  varIds : List String
  vars : List VarSpec
  objCoeffs : List ℚ
  objConst : ℚ
  constraints : List Constr
deriving DecidableEq, Repr

/-- Modelled from the spec (§4.1, §7): construction-time errors. -/
inductive BuildError where
  | DuplicateVariableError
  | InvalidBoundsError
  | UnknownVariableError
deriving DecidableEq, Repr

/-- Modelled from the spec (§4.1): `addVariable(id, lowerBound,
upperBound, kind)` fails with `InvalidBoundsError` when
lowerBound > upperBound and with `DuplicateVariableError` when the id is
already registered; otherwise it registers the variable. -/
def addVariable (m : Model) (id : String) (lb ub : Option ℚ)
    (kind : DomainKind) : Except BuildError Model :=
  match lb, ub with
  | some l, some u =>
    if u < l then .error .InvalidBoundsError
    else if m.varIds.contains id then .error .DuplicateVariableError
    else .ok { m with varIds := m.varIds ++ [id],
                      vars := m.vars ++ [⟨lb, ub, kind⟩] }
  | _, _ =>
    if m.varIds.contains id then .error .DuplicateVariableError
    else .ok { m with varIds := m.varIds ++ [id],
                      vars := m.vars ++ [⟨lb, ub, kind⟩] }

/-- Dot product of a coefficient list with a value list (missing entries
count as absent terms). -/
def dot (cs xs : List ℚ) : ℚ :=
  ((cs.zip xs).map (fun p => p.1 * p.2)).sum

/-- Value of the objective expression at an assignment. -/
def objVal (m : Model) (x : List ℚ) : ℚ :=
  dot m.objCoeffs x + m.objConst

/-- Whether an assignment satisfies one constraint. -/
def constrSat (c : Constr) (x : List ℚ) : Prop :=
  match c.rel with
  | .le => dot c.coeffs x + c.const ≤ c.rhs
  | .ge => c.rhs ≤ dot c.coeffs x + c.const
  | .eq => dot c.coeffs x + c.const = c.rhs

instance (c : Constr) (x : List ℚ) : Decidable (constrSat c x) := by
  unfold constrSat
  match c.rel with
  | .le => exact inferInstanceAs (Decidable (_ ≤ _))
  | .ge => exact inferInstanceAs (Decidable (_ ≤ _))
  | .eq => exact inferInstanceAs (Decidable (_ = _))

/-- Whether a value respects a variable's bounds. -/
def boundsSat (v : VarSpec) (q : ℚ) : Prop :=
  (∀ l, v.lb = some l → l ≤ q) ∧ (∀ u, v.ub = some u → q ≤ u)

instance (v : VarSpec) (q : ℚ) : Decidable (boundsSat v q) := by
  unfold boundsSat
  exact instDecidableAnd

/-- Whether a value respects a variable's domain kind: Integer and
Binary variables must take integer values (a rational is an integer iff
its reduced denominator is 1). -/
def kindSat (v : VarSpec) (q : ℚ) : Prop :=
  match v.kind with
  | .Continuous => True
  | .Integer => q.den = 1
  | .Binary => q.den = 1

instance (v : VarSpec) (q : ℚ) : Decidable (kindSat v q) := by
  unfold kindSat
  match v.kind with
  | .Continuous => exact inferInstanceAs (Decidable True)
  | .Integer => exact inferInstanceAs (Decidable (_ = _))
  | .Binary => exact inferInstanceAs (Decidable (_ = _))

/-- Modelled from the spec (§3, §4.3): integer-feasibility of an
assignment for a model — correct length, all bounds, all constraints,
and integrality of Integer/Binary variables. -/
def Feas (m : Model) (x : List ℚ) : Prop :=
  x.length = m.vars.length ∧
  (∀ p ∈ m.vars.zip x, boundsSat p.1 p.2 ∧ kindSat p.1 p.2) ∧
  (∀ c ∈ m.constraints, constrSat c x)

instance (m : Model) (x : List ℚ) : Decidable (Feas m x) := by
  unfold Feas
  exact instDecidableAnd

/-- Modelled from the spec (§1, §3): `z` is the optimal objective value
of a model — achieved by some feasible assignment, and a bound (lower
for Minimize, upper for Maximize) on the objective over all feasible
assignments.  The spec's `Optimal` status is specified to carry exactly
this provably optimal value. -/
def OptValue (m : Model) (z : ℚ) : Prop :=
  (∃ x, Feas m x ∧ objVal m x = z) ∧
  (∀ x, Feas m x →
    match m.direction with
    | .Minimize => z ≤ objVal m x
    | .Maximize => objVal m x ≤ z)

/-! ### Canonical form (spec §3, §4.2)

Modelled from the spec: the solver-private canonical form.  All
inequalities are normalized to `≤` (sign-flipping `≥` rows, splitting
`=` rows into a `≤`/`≥` pair), every variable is made nonnegative —
variables with a finite lower bound `l` are shifted (`x = y + l`), free
variables are split into positive and negative parts (`x = y⁺ − y⁻`) —
and finite upper bounds become extra `≤` rows. -/

/-- Number of canonical columns a variable occupies: one when it has a
finite lower bound (shifted), two when it is unbounded below (split). -/
def varWidth (v : VarSpec) : ℕ :=
  match v.lb with
  | some _ => 1
  | none => 2

/-- Total number of structural canonical columns. -/
def numColsOf (vars : List VarSpec) : ℕ :=
  (vars.map varWidth).sum

/-- Substitute per-variable coefficients into canonical columns: a
shifted variable keeps its coefficient, a split variable contributes the
coefficient on its positive part and its negation on the negative
part.  Missing coefficients count as `0`. -/
def stdVec : List VarSpec → List ℚ → List ℚ
  | [], _ => []
  | v :: vs, cs =>
    let a := cs.headD 0
    match v.lb with
    | some _ => a :: stdVec vs cs.tail
    | none => a :: -a :: stdVec vs cs.tail

/-- Constant absorbed by the lower-bound shifts: `Σ aᵢ·lᵢ` over the
variables with a finite lower bound. -/
def shiftConstOf : List VarSpec → List ℚ → ℚ
  | [], _ => 0
  | v :: vs, cs =>
    (match v.lb with
     | some l => cs.headD 0 * l
     | none => 0) + shiftConstOf vs cs.tail

/-- Canonical `≤` rows expressing the finite upper bounds: `y ≤ u − l`
for a shifted variable, `y⁺ − y⁻ ≤ u` for a split one. -/
def ubRowsOf : List VarSpec → List (List ℚ × ℚ)
  | [] => []
  | v :: vs =>
    let pad : List ℚ := List.replicate (varWidth v) 0
    let rest := (ubRowsOf vs).map (fun r => (pad ++ r.1, r.2))
    match v.lb, v.ub with
    | some l, some u => ([1] ++ List.replicate (numColsOf vs) (0:ℚ), u - l) :: rest
    | none, some u => ([1, -1] ++ List.replicate (numColsOf vs) (0:ℚ), u) :: rest
    | _, none => rest

/-- Canonical `≤` rows of the model's constraints after substitution:
`≤` rows are kept, `≥` rows are sign-flipped, `=` rows are split into a
`≤`/`≥` pair. -/
def constrRows (vars : List VarSpec) (cs : List Constr) : List (List ℚ × ℚ) :=
  (cs.map (fun c =>
    let row := stdVec vars c.coeffs
    let r := c.rhs - c.const - shiftConstOf vars c.coeffs
    match c.rel with
    | .le => [(row, r)]
    | .ge => [(row.map Neg.neg, -r)]
    | .eq => [(row, r), (row.map Neg.neg, -r)])).flatten

/-- Modelled from the spec (§3): the canonical form — minimize
`cost·y + offset` subject to `rows·y ≤ rhs`, `y ≥ 0`. -/
structure StdForm where
  ncols : ℕ
  rows : List (List ℚ)
  rhss : List ℚ
  cost : List ℚ
  offset : ℚ
deriving Repr

/-- Modelled from the spec (§3): canonical-form conversion of a
(Minimize-direction) model's data. -/
def canonicalize (vars : List VarSpec) (objCoeffs : List ℚ) (objConst : ℚ)
    (cs : List Constr) : StdForm :=
  let rws := constrRows vars cs ++ ubRowsOf vars
  ⟨numColsOf vars, rws.map (·.1), rws.map (·.2),
   stdVec vars objCoeffs, objConst + shiftConstOf vars objCoeffs⟩

/-- Undo the canonicalization on a vector of structural column values:
`x = y + l` for shifted variables, `x = y⁺ − y⁻` for split ones. -/
def extractVals : List VarSpec → List ℚ → List ℚ
  | [], _ => []
  | v :: vs, ys =>
    match v.lb with
    | some l => (ys.headD 0 + l) :: extractVals vs ys.tail
    | none => (ys.headD 0 - ys.tail.headD 0) :: extractVals vs ys.tail.tail

/-! ### Two-phase tableau simplex (spec §4.2) -/

/-- Modelled from the spec (§4.2): the simplex tableau — rows with
their right-hand sides, the index of the basic variable of each row,
the reduced-cost row, and the current objective value. -/
structure Tab where
  rows : List (List ℚ)
  rhss : List ℚ
  basis : List ℕ
  cost : List ℚ
  z : ℚ
deriving Repr

/-- The `i`-th unit row of length `n`. -/
def unitRow (n i : ℕ) : List ℚ :=
  (List.range n).map (fun j => if j = i then 1 else 0)

/-- Build the initial tableau rows: append the slack unit columns, force
every right-hand side nonnegative by negating rows where needed, and
give each negated row an artificial unit column; the initial basis is
the slack variable of each kept row and the artificial variable of each
negated row.  Arguments: structural width `n`, row count `m`, artificial
count `nArt`, the canonical rows, the current row index and the count of
artificials used so far. -/
def buildRows (n m nArt : ℕ) : List (List ℚ × ℚ) → ℕ → ℕ →
    List (List ℚ) × List ℚ × List ℕ
  | [], _, _ => ([], [], [])
  | (row, b) :: rest, i, a =>
    if b < 0 then
      let (rs, bs, bss) := buildRows n m nArt rest (i + 1) (a + 1)
      (((row ++ unitRow m i).map Neg.neg ++ unitRow nArt a) :: rs,
       -b :: bs, (n + m + a) :: bss)
    else
      let (rs, bs, bss) := buildRows n m nArt rest (i + 1) a
      ((row ++ unitRow m i ++ List.replicate nArt 0) :: rs,
       b :: bs, (n + i) :: bss)

/-- Price out the basic columns: turn a raw cost row into the
reduced-cost row of the current basis, accumulating the corresponding
objective value. -/
def priceOut (t : Tab) : Tab :=
  let step := fun (acc : List ℚ × ℚ) (p : ℕ × List ℚ × ℚ) =>
    let cb := acc.1.getD p.1 0
    (acc.1.zipWith (fun x y => x - cb * y) p.2.1, acc.2 + cb * p.2.2)
  let res := (t.basis.zip (t.rows.zip t.rhss)).foldl step (t.cost, t.z)
  { t with cost := res.1, z := res.2 }

/-- Modelled from the spec (§4.2): Bland's rule — the entering column is
the smallest-index column (among the first `nAllowed`, excluding
artificial columns) whose reduced cost is below `−ε`. -/
def enteringCol (eps : ℚ) (nAllowed : ℕ) (cost : List ℚ) : Option ℕ :=
  (cost.take nAllowed).findIdx? (fun q => decide (q < -eps))

/-- Preference between candidate leaving rows: smaller quotient first,
ties broken by the smaller basic-variable index (anti-cycling
tie-break). -/
def betterRow (cur : Option (ℕ × ℚ × ℕ)) (cand : ℕ × ℚ × ℕ) :
    Option (ℕ × ℚ × ℕ) :=
  match cur with
  | none => some cand
  | some best =>
    if cand.2.1 < best.2.1 then some cand
    else if cand.2.1 = best.2.1 ∧ cand.2.2 < best.2.2 then some cand
    else some best

/-- Modelled from the spec (§4.2): the minimum-quotient test over rows
whose entry in the entering column exceeds `ε`; `none` when no row
qualifies (the unbounded case). -/
def chooseLeaving (eps : ℚ) (t : Tab) (j : ℕ) : Option ℕ :=
  let cands := (t.rows.zip (t.rhss.zip t.basis)).enum.filterMap
    (fun p =>
      let a := p.2.1.getD j 0
      if eps < a then some (p.1, p.2.2.1 / a, p.2.2.2) else none)
  (cands.foldl betterRow none).map (·.1)

/-- Pivot the tableau at row `r`, column `j`. -/
def pivot (t : Tab) (r j : ℕ) : Tab :=
  let prow := t.rows.getD r []
  let pv := prow.getD j 0
  let nrow := prow.map (· / pv)
  let nrhs := t.rhss.getD r 0 / pv
  let pairs := (t.rows.zip t.rhss).enum.map
    (fun p =>
      if p.1 = r then (nrow, nrhs)
      else
        let f := p.2.1.getD j 0
        (p.2.1.zipWith (fun x y => x - f * y) nrow, p.2.2 - f * nrhs))
  let cf := t.cost.getD j 0
  ⟨pairs.map (·.1), pairs.map (·.2), t.basis.set r j,
   t.cost.zipWith (fun x y => x - cf * y) nrow, t.z + cf * nrhs⟩

/-- Outcome of a simplex phase. -/
inductive SpxOut where
  | done (t : Tab)
  | unbounded
  | iterLimit
deriving Repr

/-- Modelled from the spec (§4.2): the simplex pivoting loop.  Select an
entering column (Bland's rule); if none, the tableau is optimal; if the
entering column passes the minimum-quotient test with no qualifying row,
the problem is unbounded and that status is returned immediately;
otherwise pivot and continue, giving up with `iterLimit` when the
iteration ceiling is exhausted. -/
def spxLoop (eps : ℚ) (nAllowed : ℕ) : ℕ → Tab → SpxOut
  | fuel, t =>
    match enteringCol eps nAllowed t.cost with
    | none => .done t
    | some j =>
      match chooseLeaving eps t j with
      | none => .unbounded
      | some r =>
        match fuel with
        | 0 => .iterLimit
        | f + 1 => spxLoop eps nAllowed f (pivot t r j)

/-- Result of solving a canonical-form LP. -/
inductive LpRes where
  | optimal (y : List ℚ) (z : ℚ)
  | infeasible
  | unbounded
  | iterLimit
deriving Repr

/-- Read the value of each of the first `n` columns off the final
tableau: the right-hand side of its row when basic, `0` otherwise. -/
def readCols (t : Tab) (n : ℕ) : List ℚ :=
  (List.range n).map
    (fun j =>
      match t.basis.enum.find? (fun p => p.2 = j) with
      | some p => t.rhss.getD p.1 0
      | none => 0)

/-- Modelled from the spec (§4.2): two-phase tableau simplex on a
canonical form.  Phase 1 minimizes the sum of the artificial variables;
if its minimum exceeds `ε` the problem is infeasible.  Phase 2 restarts
from the feasible basis with the true objective priced out. -/
def stdSolve (eps : ℚ) (fuel : ℕ) (sf : StdForm) : LpRes :=
  let m := sf.rows.length
  let nArt := (sf.rhss.filter (fun b => decide (b < 0))).length
  let built := buildRows sf.ncols m nArt (sf.rows.zip sf.rhss) 0 0
  let nAllowed := sf.ncols + m
  let t0 : Tab := ⟨built.1, built.2.1, built.2.2,
    List.replicate nAllowed 0 ++ List.replicate nArt 1, 0⟩
  match spxLoop eps nAllowed fuel (priceOut t0) with
  | .unbounded => .unbounded
  | .iterLimit => .iterLimit
  | .done tp =>
    if eps < tp.z then .infeasible
    else
      let t2 := priceOut { tp with
        cost := sf.cost ++ List.replicate (m + nArt) 0, z := 0 }
      match spxLoop eps nAllowed fuel t2 with
      | .unbounded => .unbounded
      | .iterLimit => .iterLimit
      | .done tf => .optimal (readCols tf sf.ncols) tf.z

/-- Result of solving a relaxation, in the original variable space. -/
inductive RelaxRes where
  | optimal (x : List ℚ) (obj : ℚ)
  | infeasible
  | unbounded
  | iterLimit
deriving DecidableEq, Repr

/-- Modelled from the spec (§4.2): solve the continuous relaxation of
(Minimize-direction) model data — canonicalize, run two-phase simplex,
undo the canonicalization shifts/splits on the reported values and add
back the absorbed objective constant. -/
def lpRelax (eps : ℚ) (fuel : ℕ) (vars : List VarSpec)
    (objCoeffs : List ℚ) (objConst : ℚ) (cs : List Constr) : RelaxRes :=
  let sf := canonicalize vars objCoeffs objConst cs
  match stdSolve eps fuel sf with
  | .optimal y z => .optimal (extractVals vars y) (z + sf.offset)
  | .infeasible => .infeasible
  | .unbounded => .unbounded
  | .iterLimit => .iterLimit

/-! ### Branch-and-bound driver (spec §4.3) -/

/-- Modelled from the spec (§6): solver configuration — numerical
tolerance `ε`, the configurable node-exploration limit, and the simplex
iteration ceiling. -/
structure Config where
  eps : ℚ
  nodeLimit : ℕ
  pivotLimit : ℕ
deriving Repr

/-- Modelled from the spec (§3): the solver's result — a status
(Optimal with values and objective, Infeasible, Unbounded, or
Suboptimal with a reason and the best incumbent found so far). -/
inductive SolveResult where
  | optimal (values : List ℚ) (obj : ℚ)
  | infeasible
  | unbounded
  | suboptimal (reason : String) (incumbent : Option (List ℚ × ℚ))
deriving DecidableEq, Repr

/-- Floor of a rational as an integer (`Int.fdiv` is floor
division). -/
def intFloor (q : ℚ) : ℤ :=
  Int.fdiv q.num q.den

/-- Ceiling of a rational as an integer. -/
def intCeil (q : ℚ) : ℤ :=
  -intFloor (-q)

/-- The integer nearest to a rational (halves round up). -/
def nearestInt (q : ℚ) : ℤ :=
  intFloor (q + 1 / 2)

/-- Distance of a rational to the nearest integer. -/
def fracDist (q : ℚ) : ℚ :=
  |q - (nearestInt q : ℚ)|

/-- Integer/Binary variables whose value is farther than `ε` from the
nearest integer, paired with that distance, in index order. -/
def fracCands (eps : ℚ) (kinds : List DomainKind) (x : List ℚ) :
    List (ℕ × ℚ) :=
  (kinds.zip x).enum.filterMap
    (fun p =>
      match p.2.1 with
      | .Continuous => none
      | _ => if eps < fracDist p.2.2 then some (p.1, fracDist p.2.2) else none)

/-- One step of the most-fractional-candidate selection. -/
def pickStep (best : Option (ℕ × ℚ)) (c : ℕ × ℚ) : Option (ℕ × ℚ) :=
  match best with
  | none => some c
  | some b => if b.2 < c.2 then some c else some b

/-- Modelled from the spec (§4.3): most-fractional branching — the
candidate with the largest distance to the nearest integer, ties broken
by the smallest variable index (only a strictly larger distance
displaces an earlier candidate). -/
def pickBranch (cands : List (ℕ × ℚ)) : Option (ℕ × ℚ) :=
  cands.foldl pickStep none

/-- Replace the `i`-th entry of a list by applying `f`. -/
def updateAt : List α → ℕ → (α → α) → List α
  | [], _, _ => []
  | a :: as, 0, f => f a :: as
  | a :: as, n + 1, f => a :: updateAt as n f

/-- Child node with the added upper bound `⌊v⌋` on variable `i`. -/
def floorChild (vars : List VarSpec) (i : ℕ) (v : ℚ) : List VarSpec :=
  updateAt vars i
    (fun s => { s with ub := some (match s.ub with
      | none => (intFloor v : ℚ)
      | some u => min u (intFloor v : ℚ)) })

/-- Child node with the added lower bound `⌈v⌉` on variable `i`. -/
def ceilChild (vars : List VarSpec) (i : ℕ) (v : ℚ) : List VarSpec :=
  updateAt vars i
    (fun s => { s with lb := some (match s.lb with
      | none => (intCeil v : ℚ)
      | some l => max l (intCeil v : ℚ)) })

/-- Final status when the node stack empties: Infeasible when no
integer-feasible node was ever found, otherwise Optimal with the
incumbent. -/
def bbFinish : Option (List ℚ × ℚ) → SolveResult
  | none => .infeasible
  | some p => .optimal p.1 p.2

/-- Replace the incumbent when the candidate's objective is strictly
better (Minimize). -/
def betterInc (inc : Option (List ℚ × ℚ)) (cand : List ℚ × ℚ) :
    Option (List ℚ × ℚ) :=
  match inc with
  | none => some cand
  | some b => if cand.2 < b.2 then some cand else some b

/-- Bound cut (Minimize): prune when the node's relaxed objective is no
better than the incumbent's, within `ε`. -/
def pruneByBound (eps : ℚ) (inc : Option (List ℚ × ℚ)) (z : ℚ) : Bool :=
  match inc with
  | none => false
  | some b => decide (b.2 ≤ z + eps)

/-- Modelled from the spec (§4.3): the depth-first branch-and-bound
loop over a stack of nodes (variable lists with tightened bounds).
Each node's LP relaxation is solved; Infeasible or Unbounded nodes are
pruned, bound-cut nodes are pruned, integer-feasible nodes update the
incumbent, and fractional nodes push the two children of the
most-fractional variable.  An empty stack ends the search; exhausting
the node limit yields Suboptimal with the best incumbent. -/
def bbLoop (cfg : Config) (objCoeffs : List ℚ) (objConst : ℚ)
    (cs : List Constr) (kinds : List DomainKind) :
    ℕ → List (List VarSpec) → Option (List ℚ × ℚ) → SolveResult
  | _, [], inc => bbFinish inc
  | 0, _ :: _, inc => .suboptimal "node limit reached" inc
  | fuel + 1, nv :: rest, inc =>
    match lpRelax cfg.eps cfg.pivotLimit nv objCoeffs objConst cs with
    | .infeasible => bbLoop cfg objCoeffs objConst cs kinds fuel rest inc
    | .unbounded => bbLoop cfg objCoeffs objConst cs kinds fuel rest inc
    | .iterLimit => .suboptimal "iteration limit reached" inc
    | .optimal x z =>
      if pruneByBound cfg.eps inc z then
        bbLoop cfg objCoeffs objConst cs kinds fuel rest inc
      else
        match pickBranch (fracCands cfg.eps kinds x) with
        | none => bbLoop cfg objCoeffs objConst cs kinds fuel rest
            (betterInc inc (x, z))
        | some p =>
          let v := x.getD p.1 0
          bbLoop cfg objCoeffs objConst cs kinds fuel
            (floorChild nv p.1 v :: ceilChild nv p.1 v :: rest) inc

/-- Direction normalization (spec §4.2): a Maximize model is solved by
negating its objective, the reported value being negated back. -/
def normDir (m : Model) : Model :=
  match m.direction with
  | .Minimize => m
  | .Maximize =>
    { m with direction := .Minimize,
             objCoeffs := m.objCoeffs.map Neg.neg,
             objConst := -m.objConst }

/-- The root LP relaxation of a (Minimize-direction) model. -/
def rootRelax (cfg : Config) (m : Model) : RelaxRes :=
  lpRelax cfg.eps cfg.pivotLimit m.vars m.objCoeffs m.objConst m.constraints

/-- Modelled from the spec (§4.3): solve a Minimize-direction model —
if the root relaxation is Unbounded the overall result is Unbounded,
otherwise run the branch-and-bound search from the root node with the
configured node limit. -/
def solveMin (cfg : Config) (m : Model) : SolveResult :=
  match rootRelax cfg m with
  | .unbounded => .unbounded
  | .iterLimit => .suboptimal "iteration limit reached" none
  | _ => bbLoop cfg m.objCoeffs m.objConst m.constraints
      (m.vars.map (fun v => v.kind)) cfg.nodeLimit [m.vars] none

/-- Negate the objective value in a result (used to undo the Maximize
normalization). -/
def negResult : SolveResult → SolveResult
  | .optimal x z => .optimal x (-z)
  | .suboptimal r inc => .suboptimal r (inc.map (fun p => (p.1, -p.2)))
  | .infeasible => .infeasible
  | .unbounded => .unbounded

/-- Modelled from the spec (§4.2–4.3): the solver entry point. -/
def solve (cfg : Config) (m : Model) : SolveResult :=
  match m.direction with
  | .Minimize => solveMin cfg m
  | .Maximize => negResult (solveMin cfg (normDir m))

/-! ### The repository script (`src/linear_prog.py`)

The script reads a spreadsheet into a food list with per-food price,
calories, fat and carbohydrate columns (lines 47–56), builds the diet
problem (lines 44, 60–76) and reports the solution (lines 82–91).  The
tabular input is embedded as a list of rows. -/

/-- One row of the spreadsheet as the script consumes it: food name,
price per serving, calories, total fat and carbohydrates per serving
(lines 50–56). -/
structure DietRow where
  food : String
  price : ℚ
  calories : ℚ
  fat : ℚ
  carbs : ℚ
deriving Repr

/-- Lines 44 and 60–76 of `linear_prog.py`: a Minimize problem whose
variables are the foods, each with lower bound 0, no upper bound and
Integer category (line 60); objective `Σ cost·x` (line 63); and the six
nutrient rows — calories ≥ 800, calories ≤ 1300, fat ≥ 20, fat ≤ 50,
carbs ≥ 130, carbs ≤ 200 (lines 66–76). -/
def buildDietModel (rows : List DietRow) : Model :=
  ⟨.Minimize,
   rows.map (fun r => r.food),
   rows.map (fun _ => ⟨some 0, none, .Integer⟩),
   rows.map (fun r => r.price), 0,
   [⟨rows.map (fun r => r.calories), 0, .ge, 800⟩,
    ⟨rows.map (fun r => r.calories), 0, .le, 1300⟩,
    ⟨rows.map (fun r => r.fat), 0, .ge, 20⟩,
    ⟨rows.map (fun r => r.fat), 0, .le, 50⟩,
    ⟨rows.map (fun r => r.carbs), 0, .ge, 130⟩,
    ⟨rows.map (fun r => r.carbs), 0, .le, 200⟩]⟩

/-- Round half to even, as Python's `round` ties-to-even rule does. -/
def roundHalfEven (q : ℚ) : ℤ :=
  let f := intFloor q
  let r := q - f
  if r < 1 / 2 then f
  else if 1 / 2 < r then f + 1
  else if f % 2 = 0 then f else f + 1

/-- `round(q, 2)` of line 91: round to two decimal places. -/
def round2 (q : ℚ) : ℚ :=
  (roundHalfEven (q * 100) : ℚ) / 100

/-- What the script prints (lines 85–91), as data: the name/value pairs
whose value is strictly positive, and the rounded objective. -/
structure DietReport where
  shown : List (String × ℚ)
  costShown : ℚ
deriving DecidableEq, Repr

/-- Lines 85–91 of `linear_prog.py`: print `v.name = v.varValue` for
each variable with `v.varValue > 0`, then always print the objective
value rounded to 2 decimal places. -/
def reportResult (vals : List (String × ℚ)) (obj : ℚ) : DietReport :=
  ⟨vals.filter (fun p => decide (0 < p.2)), round2 obj⟩

/-! ### Concrete instances used in the theorems below -/

/-- Exact-arithmetic configuration for the concrete runs: tolerance 0,
node limit 100, pivot ceiling 100. -/
def exactCfg : Config := ⟨0, 100, 100⟩

/-- The spec's concrete two-food scenario (§8): food A costs 2 with 100
calories per serving, food B costs 3 with 250, both Integer with bounds
[0, 10], calories between 800 and 1300. -/
def scenarioModel : Model :=
  ⟨.Minimize, ["A", "B"],
   [⟨some 0, some 10, .Integer⟩, ⟨some 0, some 10, .Integer⟩],
   [2, 3], 0,
   [⟨[100, 250], 0, .ge, 800⟩, ⟨[100, 250], 0, .le, 1300⟩]⟩

/-- The spec's contradictory-constraints example (§8): one variable with
x ≤ 1 and x ≥ 2. -/
def contraModel : Model :=
  ⟨.Minimize, ["x"], [⟨some 0, none, .Continuous⟩], [1], 0,
   [⟨[1], 0, .le, 1⟩, ⟨[1], 0, .ge, 2⟩]⟩

/-- A Minimize model with a single free variable of objective
coefficient 1 and no constraints: unbounded below. -/
def freeModel : Model :=
  ⟨.Minimize, ["x"], [⟨none, none, .Continuous⟩], [1], 0, []⟩

/-- A Minimize model with a single free variable of objective
coefficient 0 and no constraints. -/
def zeroCoeffModel : Model :=
  ⟨.Minimize, ["x"], [⟨none, none, .Continuous⟩], [0], 0, []⟩

/-- A Minimize model with a free variable x (objective coefficient 1,
no constraining row on it) next to a second variable y ≥ 0 subjected to
the unsatisfiable row y ≤ −1. -/
def sideModel : Model :=
  ⟨.Minimize, ["x", "y"],
   [⟨none, none, .Continuous⟩, ⟨some 0, none, .Continuous⟩],
   [1, 0], 0, [⟨[0, 1], 0, .le, -1⟩]⟩

/-- One Integer variable with x ≥ 3/2: integer optimum x = 2. -/
def intTestModel : Model :=
  ⟨.Minimize, ["x"], [⟨some 0, none, .Integer⟩], [1], 0,
   [⟨[1], 0, .ge, 3/2⟩]⟩

/-! ### Claim theorems -/

/-- Claim C7: bound validity is enforced at construction time — every
`addVariable` call with lowerBound > upperBound fails with
`InvalidBoundsError`, and a successful call only ever registers the new
variable with consistent bounds, so an invalid-bounds state never
reaches the solver. -/
theorem addVariable_bounds_checked :
    (∀ (m : Model) (id : String) (l u : ℚ) (kind : DomainKind), u < l →
      addVariable m id (some l) (some u) kind = .error .InvalidBoundsError) ∧
    (∀ (m m' : Model) (id : String) (olb oub : Option ℚ)
      (kind : DomainKind), addVariable m id olb oub kind = .ok m' →
      m'.vars = m.vars ++ [⟨olb, oub, kind⟩] ∧
      ∀ l u, olb = some l → oub = some u → l ≤ u) := by
  constructor
  · intro m id l u kind h
    simp [addVariable, h]
  · intro m m' id olb oub kind h
    match olb, oub with
    | some l, some u =>
      simp only [addVariable] at h
      split at h
      · exact absurd h (by simp)
      · split at h
        · exact absurd h (by simp)
        · refine ⟨by injection h with h'; rw [← h'], ?_⟩
          intro l' u' hl hu
          injection hl with hl; injection hu with hu
          subst hl; subst hu
          next hlt _ => exact le_of_not_lt hlt
    | some l, none =>
      simp only [addVariable] at h
      split at h
      · exact absurd h (by simp)
      · exact ⟨by injection h with h'; rw [← h'], by intro _ _ _ hu; cases hu⟩
    | none, some u =>
      simp only [addVariable] at h
      split at h
      · exact absurd h (by simp)
      · exact ⟨by injection h with h'; rw [← h'], by intro _ _ hl _; cases hl⟩
    | none, none =>
      simp only [addVariable] at h
      split at h
      · exact absurd h (by simp)
      · exact ⟨by injection h with h'; rw [← h'], by intro _ _ hl _; cases hl⟩

/-- Witness for C7 at the spec's own example: registering a variable
with lowerBound 5 and upperBound 3 fails with `InvalidBoundsError`. -/
theorem addVariable_bounds_checked_witness :
    addVariable ⟨.Minimize, [], [], [], 0, []⟩ "x" (some 5) (some 3)
      .Integer = .error .InvalidBoundsError :=
  addVariable_bounds_checked.1 ⟨.Minimize, [], [], [], 0, []⟩ "x" 5 3
    .Integer (by norm_num)

/-- Claim C10: the reporting step shows a name/value pair exactly when
the value is strictly greater than 0 — values equal to 0 or negative
are omitted — while the objective is always shown, rounded to two
decimal places. -/
theorem report_positive_iff (vals : List (String × ℚ)) (obj : ℚ) :
    (∀ p, p ∈ (reportResult vals obj).shown ↔ p ∈ vals ∧ 0 < p.2) ∧
    (reportResult vals obj).costShown = round2 obj :=
  ⟨fun p => by simp [reportResult, List.mem_filter], rfl⟩

/-- Claim C4: the node-exploration limit is explicit configuration
(`Config.nodeLimit` is the branch-and-bound fuel), exhausting it with
nodes still pending yields Suboptimal with reason "node limit reached"
carrying the incumbent found so far, and concretely the two-food
scenario under node limit 0 returns exactly that instead of running
on. -/
theorem node_limit_suboptimal :
    (∀ (cfg : Config) (oc : List ℚ) (k : ℚ) (cs : List Constr)
      (kinds : List DomainKind) (nv : List VarSpec)
      (rest : List (List VarSpec)) (inc : Option (List ℚ × ℚ)),
      bbLoop cfg oc k cs kinds 0 (nv :: rest) inc =
        .suboptimal "node limit reached" inc) ∧
    solve ⟨0, 0, 100⟩ scenarioModel = .suboptimal "node limit reached" none :=
  ⟨fun _ _ _ _ _ _ _ _ => rfl, by with_unfolding_all decide⟩

/-- Claim C8: solving is a pure function of the Model and the
configuration, so repeated solves agree; and the spec's two-food
scenario reproduces the exact optimal assignment A = 1 serving,
B = 3 servings, total cost 11. -/
theorem solve_deterministic :
    (∀ (cfg : Config) (m : Model), solve cfg m = solve cfg m) ∧
    solve exactCfg scenarioModel = .optimal [1, 3] 11 :=
  ⟨fun _ _ => rfl, by with_unfolding_all decide⟩

/-- Claim C3: the branch-and-bound search ends when the node stack is
empty, with Infeasible when no integer-feasible node was ever found and
Optimal carrying the incumbent otherwise; an Unbounded root relaxation
makes the overall result Unbounded; and the contradictory model
(x ≤ 1 ∧ x ≥ 2) solves to Infeasible — a status, not an exception. -/
theorem bb_termination_statuses :
    (∀ (cfg : Config) (oc : List ℚ) (k : ℚ) (cs : List Constr)
      (kinds : List DomainKind) (fuel : ℕ),
      bbLoop cfg oc k cs kinds fuel [] none = .infeasible) ∧
    (∀ (cfg : Config) (oc : List ℚ) (k : ℚ) (cs : List Constr)
      (kinds : List DomainKind) (fuel : ℕ) (x : List ℚ) (z : ℚ),
      bbLoop cfg oc k cs kinds fuel [] (some (x, z)) = .optimal x z) ∧
    (∀ (cfg : Config) (m : Model),
      rootRelax cfg (normDir m) = .unbounded → solve cfg m = .unbounded) ∧
    solve exactCfg contraModel = .infeasible := by
  refine ⟨?_, ?_, ?_, by with_unfolding_all decide⟩
  · intro cfg oc k cs kinds fuel
    cases fuel <;> rfl
  · intro cfg oc k cs kinds fuel x z
    cases fuel <;> rfl
  · intro cfg m h
    cases hd : m.direction
    · have hm : normDir m = m := by simp [normDir, hd]
      rw [hm] at h
      simp [solve, hd, solveMin, h]
    · simp [solve, hd, solveMin, h, negResult]

/-- Witness for C3's root-unboundedness conjunct: the one-variable free
Minimize model has an Unbounded root relaxation, and solving it indeed
returns Unbounded. -/
theorem bb_termination_statuses_witness :
    solve exactCfg freeModel = .unbounded :=
  bb_termination_statuses.2.2.1 exactCfg freeModel
    (by with_unfolding_all decide)

/-- Claim C9: the script's problem construction gives every food
variable lower bound 0, no upper bound and Integer category; the model
has exactly the six nutrient rows and no per-food maximum-serving
constraints; consequently every feasible solution assigns each food a
nonnegative integer serving count. -/
theorem diet_vars_nonneg_integer (rows : List DietRow) :
    (∀ v ∈ (buildDietModel rows).vars,
      v.lb = some 0 ∧ v.ub = none ∧ v.kind = .Integer) ∧
    (buildDietModel rows).constraints.length = 6 ∧
    (∀ x, Feas (buildDietModel rows) x →
      ∀ q ∈ x, 0 ≤ q ∧ ∃ n : ℤ, q = (n : ℚ)) := by
  refine ⟨?_, by simp [buildDietModel], ?_⟩
  · intro v hv
    simp only [buildDietModel, List.mem_map] at hv
    obtain ⟨r, _, rfl⟩ := hv
    exact ⟨rfl, rfl, rfl⟩
  · intro x hF q hq
    obtain ⟨hlen, hvars, _⟩ := hF
    obtain ⟨i, hi, rfl⟩ := List.mem_iff_getElem.mp hq
    have hiv : i < (buildDietModel rows).vars.length := hlen ▸ hi
    have hzip : ((buildDietModel rows).vars[i], x[i]) ∈
        (buildDietModel rows).vars.zip x := by
      have hz : i < ((buildDietModel rows).vars.zip x).length := by
        rw [List.length_zip]
        exact lt_min hiv hi
      have hgz := @List.getElem_zip _ _ _ _ _ hz
      rw [← hgz]
      exact List.getElem_mem hz
    have hspec : (buildDietModel rows).vars[i] =
        (⟨some 0, none, .Integer⟩ : VarSpec) := by
      simp [buildDietModel]
    have hsat := hvars _ hzip
    rw [hspec] at hsat
    refine ⟨hsat.1.1 0 rfl, ?_⟩
    have hden : (x[i]).den = 1 := hsat.2
    exact ⟨(x[i]).num, ((Rat.den_eq_one_iff x[i]).1 hden).symm⟩

/-- Witness for C9: with one food (price 1, 1000 calories, 30 fat,
150 carbs), the assignment of 1 serving is feasible, and the theorem
yields that its value is a nonnegative integer. -/
theorem diet_vars_nonneg_integer_witness :
    0 ≤ (1 : ℚ) ∧ ∃ n : ℤ, (1 : ℚ) = (n : ℚ) :=
  (diet_vars_nonneg_integer [⟨"f", 1, 1000, 30, 150⟩]).2.2 [1]
    (by with_unfolding_all decide) 1 (by simp)

/-- Modelled from the spec (§8): `c'` is `c` with its right-hand side
tightened — same expression and relation, with the satisfying set
shrunk (`≤`: rhs decreased; `≥`: rhs increased; `=`: unchanged). -/
def TighterConstr (c c' : Constr) : Prop :=
  c'.coeffs = c.coeffs ∧ c'.const = c.const ∧ c'.rel = c.rel ∧
  match c.rel with
  | .le => c'.rhs ≤ c.rhs
  | .ge => c.rhs ≤ c'.rhs
  | .eq => c'.rhs = c.rhs

/-- Modelled from the spec (§8): `m'` is `m` with a single constraint's
right-hand side tightened and everything else unchanged. -/
def TightenedAt (m m' : Model) : Prop :=
  m'.direction = m.direction ∧ m'.vars = m.vars ∧
  m'.objCoeffs = m.objCoeffs ∧ m'.objConst = m.objConst ∧
  ∃ pre c c' post, m.constraints = pre ++ c :: post ∧
    m'.constraints = pre ++ c' :: post ∧ TighterConstr c c'

/-- Satisfying a tightened constraint satisfies the original. -/
theorem constrSat_of_tighter {c c' : Constr} {x : List ℚ}
    (h : TighterConstr c c') (hx : constrSat c' x) : constrSat c x := by
  obtain ⟨cc, ck, cr, crhs⟩ := c
  obtain ⟨dc, dk, dr, drhs⟩ := c'
  obtain ⟨hco, hct, hrel, hrhs⟩ := h
  simp only at hco hct hrel
  subst hco; subst hct; subst hrel
  cases dr
  all_goals simp only [constrSat] at hx hrhs ⊢
  · exact le_trans hx hrhs
  · exact le_trans hrhs hx
  · exact hrhs ▸ hx

/-- Shrinking the feasible region: every assignment feasible for the
tightened model is feasible for the original. -/
theorem feas_of_tightened {m m' : Model} {x : List ℚ}
    (ht : TightenedAt m m') (hx : Feas m' x) : Feas m x := by
  obtain ⟨_, hv, _, _, pre, c, c', post, hm, hm', htc⟩ := ht
  obtain ⟨hlen, hvars, hcons⟩ := hx
  refine ⟨by rw [hlen, hv], by rw [← hv]; exact hvars, ?_⟩
  intro d hd
  rw [hm] at hd
  rcases List.mem_append.mp hd with hpre | htail
  · exact hcons d (by rw [hm']; exact List.mem_append_left _ hpre)
  · rcases List.mem_cons.mp htail with rfl | hpost
    · exact constrSat_of_tighter htc
        (hcons c' (by rw [hm']; exact List.mem_append_right _ (.head _)))
    · exact hcons d (by rw [hm']; exact List.mem_append_right _ (.tail _ hpost))

/-- The objective value only depends on the objective data, which a
tightening preserves. -/
theorem objVal_eq_of_tightened {m m' : Model} (ht : TightenedAt m m')
    (x : List ℚ) : objVal m' x = objVal m x := by
  obtain ⟨_, _, ho, hk, _⟩ := ht
  simp [objVal, ho, hk]

/-- Claim C5: for Minimize models, tightening a single constraint's
right-hand side never yields a strictly smaller optimal objective value
(first conjunct), and relaxing one never yields a strictly larger one
(second conjunct, where `m'` is the relaxation of `m`). -/
theorem optimum_monotone :
    (∀ (m m' : Model) (z z' : ℚ), m.direction = .Minimize →
      TightenedAt m m' → OptValue m z → OptValue m' z' → z ≤ z') ∧
    (∀ (m m' : Model) (z z' : ℚ), m.direction = .Minimize →
      TightenedAt m' m → OptValue m z → OptValue m' z' → z' ≤ z) := by
  constructor
  · intro m m' z z' hdir ht hz hz'
    obtain ⟨x', hx', hobj'⟩ := hz'.1
    have hfx : Feas m x' := feas_of_tightened ht hx'
    have hb := hz.2 x' hfx
    rw [hdir] at hb
    calc z ≤ objVal m x' := hb
    _ = objVal m' x' := (objVal_eq_of_tightened ht x').symm
    _ = z' := hobj'
  · intro m m' z z' hdir ht hz hz'
    obtain ⟨x, hx, hobj⟩ := hz.1
    have hfx : Feas m' x := feas_of_tightened ht hx
    have hb := hz'.2 x hfx
    rw [← ht.1, hdir] at hb
    calc z' ≤ objVal m' x := hb
    _ = objVal m x := (objVal_eq_of_tightened ht x).symm
    _ = z := hobj

/-- Minimize x for x ∈ [0, 10] continuous, subject to x ≥ 1. -/
def lbOneModel : Model :=
  ⟨.Minimize, ["x"], [⟨some 0, some 10, .Continuous⟩], [1], 0,
   [⟨[1], 0, .ge, 1⟩]⟩

/-- `lbOneModel` with its row's right-hand side tightened to x ≥ 2. -/
def lbTwoModel : Model :=
  ⟨.Minimize, ["x"], [⟨some 0, some 10, .Continuous⟩], [1], 0,
   [⟨[1], 0, .ge, 2⟩]⟩

/-- `lbTwoModel` is `lbOneModel` tightened at its only row. -/
theorem lbTwo_tightened : TightenedAt lbOneModel lbTwoModel :=
  ⟨rfl, rfl, rfl, rfl, [], ⟨[1], 0, .ge, 1⟩, ⟨[1], 0, .ge, 2⟩, [],
   rfl, rfl, rfl, rfl, rfl, by norm_num⟩

/-- The optimal value of `lbOneModel` is 1. -/
theorem optValue_lbOne : OptValue lbOneModel 1 := by
  constructor
  · exact ⟨[1], by with_unfolding_all decide, by with_unfolding_all decide⟩
  · intro x hx
    have hc := hx.2.2 ⟨[1], 0, .ge, 1⟩ (by simp [lbOneModel])
    simp only [constrSat] at hc
    show (1 : ℚ) ≤ objVal lbOneModel x
    simpa [objVal, lbOneModel] using hc

/-- The optimal value of `lbTwoModel` is 2. -/
theorem optValue_lbTwo : OptValue lbTwoModel 2 := by
  constructor
  · exact ⟨[2], by with_unfolding_all decide, by with_unfolding_all decide⟩
  · intro x hx
    have hc := hx.2.2 ⟨[1], 0, .ge, 2⟩ (by simp [lbTwoModel])
    simp only [constrSat] at hc
    show (2 : ℚ) ≤ objVal lbTwoModel x
    simpa [objVal, lbTwoModel] using hc

/-- Witness for C5: tightening x ≥ 1 to x ≥ 2 moves the optimum from 1
to 2 — not smaller; relaxing x ≥ 2 back to x ≥ 1 moves it from 2 to 1 —
not larger. -/
theorem optimum_monotone_witness : ((1 : ℚ) ≤ 2) ∧ ((1 : ℚ) ≤ 2) :=
  ⟨optimum_monotone.1 lbOneModel lbTwoModel 1 2 rfl lbTwo_tightened
    optValue_lbOne optValue_lbTwo,
   optimum_monotone.2 lbTwoModel lbOneModel 2 1 rfl lbTwo_tightened
    optValue_lbTwo optValue_lbOne⟩

/-- Modelled from the spec (§8): the second model of the round-trip
property — `m` plus the equality constraint pinning the objective
expression to the value `z`. -/
def addObjEq (m : Model) (z : ℚ) : Model :=
  { m with constraints :=
      m.constraints ++ [⟨m.objCoeffs, m.objConst, .eq, z⟩] }

/-- Claim C6: if `z` is the optimal value of a model, then the model
re-built with the added equality constraint "objective expression = z"
again has optimal value exactly `z`; concretely, re-solving the
two-food scenario with its optimum 11 pinned still reports Optimal with
objective 11. -/
theorem roundtrip_reoptimization :
    (∀ (m : Model) (z : ℚ), OptValue m z → OptValue (addObjEq m z) z) ∧
    solve exactCfg (addObjEq scenarioModel 11) = .optimal [1, 3] 11 := by
  refine ⟨?_, by with_unfolding_all decide⟩
  intro m z h
  obtain ⟨dir, ids, vars, oc, oco, cs⟩ := m
  obtain ⟨⟨x0, hx0, hobj0⟩, hbound⟩ := h
  refine ⟨⟨x0, ⟨hx0.1, hx0.2.1, ?_⟩, hobj0⟩, ?_⟩
  · intro c hc
    rcases List.mem_append.mp hc with hold | hnew
    · exact hx0.2.2 c hold
    · have hceq := List.mem_singleton.mp hnew
      subst hceq
      simpa [constrSat, objVal] using hobj0
  · intro x hx
    have hc := hx.2.2 ⟨oc, oco, .eq, z⟩
      (List.mem_append_right _ (List.Mem.head _))
    have hz : objVal ⟨dir, ids, vars, oc, oco, cs⟩ x = z := by
      simpa [constrSat, objVal] using hc
    cases dir
    · exact hz.ge
    · exact hz.le

/-- Witness for C6: applying the round-trip theorem at `lbOneModel`
with its optimal value 1. -/
theorem roundtrip_reoptimization_witness :
    OptValue (addObjEq lbOneModel 1) 1 :=
  roundtrip_reoptimization.1 lbOneModel 1 optValue_lbOne

/-- A model whose variables all lack finite upper bounds produces no
upper-bound rows in canonical form. -/
theorem ubRowsOf_eq_nil {vars : List VarSpec}
    (h : ∀ v ∈ vars, v.ub = none) : ubRowsOf vars = [] := by
  induction vars with
  | nil => rfl
  | cons v vs ih =>
    have hv := h v (List.mem_cons_self _ _)
    have hrest := ih (fun w hw => h w (List.mem_cons_of_mem _ hw))
    cases hlb : v.lb <;> simp [ubRowsOf, hv, hlb, hrest]

/-- The canonical substitution of a coefficient vector has exactly the
canonical width. -/
theorem stdVec_length (vars : List VarSpec) (cs : List ℚ) :
    (stdVec vars cs).length = numColsOf vars := by
  induction vars generalizing cs with
  | nil => rfl
  | cons v vs ih =>
    cases hlb : v.lb <;> simp [stdVec, numColsOf, varWidth, hlb, ih] <;> omega

/-- A free variable contributes `−|c|` (one of the columns `c`, `−c`) to
the canonical cost vector. -/
theorem neg_abs_mem_stdVec {vars : List VarSpec} {cs : List ℚ}
    {v : VarSpec} {c : ℚ} (hmem : (v, c) ∈ vars.zip cs)
    (hfree : v.lb = none) : -|c| ∈ stdVec vars cs := by
  induction vars generalizing cs with
  | nil => simp at hmem
  | cons w ws ih =>
    cases cs with
    | nil => simp at hmem
    | cons a as =>
      rcases List.mem_cons.mp hmem with heq | htail
      · injection heq with h1 h2
        subst h1; subst h2
        have hstep : stdVec (v :: ws) (c :: as) = c :: -c :: stdVec ws as := by
          simp [stdVec, hfree]
        rw [hstep]
        rcases abs_cases c with ⟨hc, _⟩ | ⟨hc, _⟩
        · rw [hc]
          exact List.mem_cons_of_mem _ (List.mem_cons_self _ _)
        · rw [hc, neg_neg]
          exact List.mem_cons_self _ _
      · have hm := ih htail
        cases hlb : w.lb with
        | some l =>
          have hstep : stdVec (w :: ws) (a :: as) = a :: stdVec ws as := by
            simp [stdVec, hlb]
          rw [hstep]
          exact List.mem_cons_of_mem _ hm
        | none =>
          have hstep : stdVec (w :: ws) (a :: as) = a :: -a :: stdVec ws as := by
            simp [stdVec, hlb]
          rw [hstep]
          exact List.mem_cons_of_mem _ (List.mem_cons_of_mem _ hm)

/-- When some allowed column's reduced cost is below `−ε`, Bland's rule
finds an entering column. -/
theorem enteringCol_isSome {eps : ℚ} {n : ℕ} {cost : List ℚ}
    (h : ∃ q ∈ cost.take n, q < -eps) :
    ∃ j, enteringCol eps n cost = some j := by
  unfold enteringCol
  cases hf : (cost.take n).findIdx? (fun q => decide (q < -eps)) with
  | none =>
    obtain ⟨q, hq, hlt⟩ := h
    have := List.findIdx?_eq_none_iff.mp hf q hq
    simp only [decide_eq_false_iff_not] at this
    exact absurd hlt this
  | some j => exact ⟨j, rfl⟩

/-- A tableau with no rows never passes the minimum-quotient test. -/
theorem chooseLeaving_nil_rows (eps : ℚ) (rhss : List ℚ) (basis : List ℕ)
    (cost : List ℚ) (z : ℚ) (j : ℕ) :
    chooseLeaving eps ⟨[], rhss, basis, cost, z⟩ j = none := rfl

/-- Pricing out over an empty basis leaves the tableau unchanged. -/
theorem priceOut_nil_basis (rows : List (List ℚ)) (rhss : List ℚ)
    (cost : List ℚ) (z : ℚ) :
    priceOut ⟨rows, rhss, [], cost, z⟩ = ⟨rows, rhss, [], cost, z⟩ := rfl

/-- One unfolding of the simplex loop: entering column found, no
qualifying leaving row — Unbounded immediately. -/
theorem spxLoop_unbounded {eps : ℚ} {nAllowed fuel : ℕ} {t : Tab} {j : ℕ}
    (hj : enteringCol eps nAllowed t.cost = some j)
    (hr : chooseLeaving eps t j = none) :
    spxLoop eps nAllowed fuel t = .unbounded := by
  rw [spxLoop]
  simp only [hj, hr]

/-- A tableau whose entering test fails is returned as optimal
unchanged. -/
theorem spxLoop_done {eps : ℚ} {nAllowed fuel : ℕ} {t : Tab}
    (h : enteringCol eps nAllowed t.cost = none) :
    spxLoop eps nAllowed fuel t = .done t := by
  rw [spxLoop]
  simp only [h]

/-- A canonical form with no rows whose cost vector goes below `−ε`
somewhere in its `ncols` columns is detected Unbounded by the two-phase
solver. -/
theorem stdSolve_unbounded {eps : ℚ} {fuel : ℕ} {n : ℕ} {cost : List ℚ}
    {off : ℚ} (heps : 0 ≤ eps) (hlen : cost.length = n)
    (hex : ∃ q ∈ cost, q < -eps) :
    stdSolve eps fuel ⟨n, [], [], cost, off⟩ = .unbounded := by
  have hc1 : enteringCol eps (n + 0)
      (List.replicate (n + 0) (0:ℚ) ++ List.replicate 0 (1:ℚ)) = none := by
    unfold enteringCol
    refine List.findIdx?_eq_none_iff.mpr ?_
    intro q hq
    rw [show List.replicate 0 (1:ℚ) = [] from rfl, List.append_nil] at hq
    have hq0 := (List.mem_replicate.mp (List.mem_of_mem_take hq)).2
    simp only [decide_eq_false_iff_not, hq0, not_lt]
    linarith
  have hc2 : ∃ j, enteringCol eps (n + 0)
      (cost ++ List.replicate (0 + 0) (0:ℚ)) = some j := by
    apply enteringCol_isSome
    rw [show List.replicate (0 + 0) (0:ℚ) = [] from rfl, List.append_nil,
      Nat.add_zero, List.take_of_length_le (le_of_eq hlen)]
    exact hex
  obtain ⟨j, hj⟩ := hc2
  show (match spxLoop eps (n + 0) fuel
      ⟨[], [], [], List.replicate (n + 0) (0:ℚ) ++ List.replicate 0 (1:ℚ),
        0⟩ with
    | .unbounded => LpRes.unbounded
    | .iterLimit => LpRes.iterLimit
    | .done tp =>
      if eps < tp.z then LpRes.infeasible
      else
        match spxLoop eps (n + 0) fuel
            (priceOut { tp with
              cost := cost ++ List.replicate (0 + 0) (0:ℚ), z := 0 }) with
        | .unbounded => LpRes.unbounded
        | .iterLimit => LpRes.iterLimit
        | .done tf => LpRes.optimal (readCols tf n) tf.z) = LpRes.unbounded
  rw [spxLoop_done hc1]
  show (if eps < (0:ℚ) then LpRes.infeasible
    else
      match spxLoop eps (n + 0) fuel
          (priceOut ⟨[], [], [],
            cost ++ List.replicate (0 + 0) (0:ℚ), 0⟩) with
      | .unbounded => LpRes.unbounded
      | .iterLimit => LpRes.iterLimit
      | .done tf => LpRes.optimal (readCols tf n) tf.z) = LpRes.unbounded
  rw [if_neg (not_lt.mpr heps)]
  rw [priceOut_nil_basis]
  rw [spxLoop_unbounded hj (chooseLeaving_nil_rows _ _ _ _ _ _)]

/-- Solving the relaxation of a constraint-free model with no finite
upper bounds and a canonical cost entry below `−ε` reports Unbounded. -/
theorem lpRelax_unbounded {eps : ℚ} {fuel : ℕ} {vars : List VarSpec}
    {oc : List ℚ} {k : ℚ} (heps : 0 ≤ eps)
    (hub : ∀ w ∈ vars, w.ub = none)
    (hex : ∃ q ∈ stdVec vars oc, q < -eps) :
    lpRelax eps fuel vars oc k [] = .unbounded := by
  unfold lpRelax canonicalize
  simp only [constrRows, List.map_nil, List.flatten_nil, List.nil_append,
    ubRowsOf_eq_nil hub, List.map_nil]
  rw [stdSolve_unbounded heps (stdVec_length vars oc) hex]

/-- Claim C2 (amended): during simplex, an entering column with no
qualifying row in the minimum-quotient test makes the solver return
Unbounded immediately; consequently, every Minimize model with no
constraints and no finite upper bounds that contains a free
(unbounded-below) variable whose objective coefficient exceeds the
tolerance in magnitude solves to Unbounded. -/
theorem unbounded_detection :
    (∀ (eps : ℚ) (nAllowed fuel : ℕ) (t : Tab) (j : ℕ),
      enteringCol eps nAllowed t.cost = some j →
      chooseLeaving eps t j = none →
      spxLoop eps nAllowed fuel t = .unbounded) ∧
    (∀ (cfg : Config) (m : Model) (v : VarSpec) (c : ℚ),
      0 ≤ cfg.eps → m.direction = .Minimize → m.constraints = [] →
      (∀ w ∈ m.vars, w.ub = none) →
      (v, c) ∈ m.vars.zip m.objCoeffs → v.lb = none →
      cfg.eps < |c| → solve cfg m = .unbounded) := by
  constructor
  · intro eps nAllowed fuel t j hj hr
    exact spxLoop_unbounded hj hr
  · intro cfg m v c heps hdir hcs hub hmem hfree hc
    have hq : -|c| ∈ stdVec m.vars m.objCoeffs :=
      neg_abs_mem_stdVec hmem hfree
    have hroot : rootRelax cfg m = .unbounded := by
      unfold rootRelax
      rw [hcs]
      exact lpRelax_unbounded heps hub ⟨-|c|, hq, by linarith⟩
    simp [solve, hdir, solveMin, hroot]

/-- Witness for C2 (amended), at tolerance 1/100: the free-variable
model with objective coefficient 1 solves to Unbounded. -/
theorem unbounded_detection_witness :
    solve ⟨1/100, 100, 100⟩ freeModel = .unbounded :=
  unbounded_detection.2 ⟨1/100, 100, 100⟩ freeModel
    ⟨none, none, .Continuous⟩ 1
    (by norm_num) rfl rfl
    (by intro w hw; simp [freeModel] at hw; rw [hw])
    (by simp [freeModel]) rfl (by norm_num)

/-- Counterexample to C2 as stated: `zeroCoeffModel` is a Minimize model
whose only variable is free with no constraining row anywhere, yet
solving returns Optimal (the free variable's objective coefficient is
0); and `sideModel` keeps a free variable with coefficient 1 untouched
by any row, yet an unsatisfiable row on the other variable makes the
overall result Infeasible — in neither case Unbounded. -/
theorem unbounded_claim_counterexample :
    (zeroCoeffModel.direction = .Minimize ∧
     zeroCoeffModel.vars = [⟨none, none, .Continuous⟩] ∧
     zeroCoeffModel.constraints = [] ∧
     solve exactCfg zeroCoeffModel = .optimal [0] 0) ∧
    (sideModel.direction = .Minimize ∧
     sideModel.vars.headD ⟨some 0, none, .Continuous⟩ =
       ⟨none, none, .Continuous⟩ ∧
     (∀ c ∈ sideModel.constraints, c.coeffs.headD 0 = 0) ∧
     solve exactCfg sideModel = .infeasible) :=
  ⟨⟨rfl, rfl, rfl, by with_unfolding_all decide⟩,
   ⟨rfl, rfl, by with_unfolding_all decide, by with_unfolding_all decide⟩⟩

/-- Most-fractional selection never returns `none` on a nonempty
candidate list. -/
theorem pickBranch_eq_none {l : List (ℕ × ℚ)} (h : pickBranch l = none) :
    l = [] := by
  cases l with
  | nil => rfl
  | cons a t =>
    exfalso
    have hsome : ∀ (u : List (ℕ × ℚ)) (b : ℕ × ℚ),
        (u.foldl pickStep (some b)).isSome = true := by
      intro u
      induction u with
      | nil => intro b; rfl
      | cons c u' ih =>
        intro b
        show (u'.foldl pickStep (pickStep (some b) c)).isSome = true
        show (u'.foldl pickStep
          (if b.2 < c.2 then some c else some b)).isSome = true
        split
        · exact ih c
        · exact ih b
    have hp : pickBranch (a :: t) = t.foldl pickStep (some a) := rfl
    rw [hp] at h
    have := hsome t a
    rw [h] at this
    exact Bool.noConfusion this

/-- An empty fractional-candidate list means every Integer/Binary
variable's value is within `ε` of the nearest integer. -/
theorem fracCands_nil_integral {eps : ℚ} {kinds : List DomainKind}
    {x : List ℚ} (h : fracCands eps kinds x = []) :
    ∀ p ∈ kinds.zip x, p.1 ≠ .Continuous → fracDist p.2 ≤ eps := by
  intro p hp hk
  have hall := List.filterMap_eq_nil_iff.mp h
  obtain ⟨i, hi, hget⟩ := List.mem_iff_getElem.mp hp
  have henum : (i, p) ∈ (kinds.zip x).enum := by
    rw [List.mk_mem_enum_iff_getElem?]
    rw [List.getElem?_eq_getElem hi, hget]
  have hnone := hall (i, p) henum
  cases hkind : p.1 with
  | Continuous => exact absurd hkind hk
  | Integer =>
    simp only [hkind] at hnone
    by_contra hlt
    rw [if_pos (lt_of_not_le hlt)] at hnone
    exact Option.noConfusion hnone
  | Binary =>
    simp only [hkind] at hnone
    by_contra hlt
    rw [if_pos (lt_of_not_le hlt)] at hnone
    exact Option.noConfusion hnone

/-- Branch-and-bound invariant (spec §4.3): a result of status Optimal
carries an assignment that passed the integrality check — its
fractional-candidate list is empty — because incumbents are only ever
stored at integrally-feasible nodes. -/
theorem bbLoop_optimal_integral (cfg : Config) (oc : List ℚ) (k : ℚ)
    (cs : List Constr) (kinds : List DomainKind) :
    ∀ (fuel : ℕ) (stack : List (List VarSpec))
      (inc : Option (List ℚ × ℚ)) (x : List ℚ) (z : ℚ),
      (∀ p q, inc = some (p, q) → fracCands cfg.eps kinds p = []) →
      bbLoop cfg oc k cs kinds fuel stack inc = .optimal x z →
      fracCands cfg.eps kinds x = [] := by
  intro fuel
  induction fuel with
  | zero =>
    intro stack inc x z hinv hrun
    cases stack with
    | nil =>
      cases inc with
      | none => exact absurd hrun (by simp [bbLoop, bbFinish])
      | some b =>
        obtain ⟨p, q⟩ := b
        have heq : SolveResult.optimal p q = .optimal x z := hrun
        injection heq with h1 h2
        subst h1
        exact hinv p q rfl
    | cons nv rest => exact absurd hrun (by simp [bbLoop])
  | succ f ih =>
    intro stack inc x z hinv hrun
    cases stack with
    | nil =>
      cases inc with
      | none => exact absurd hrun (by simp [bbLoop, bbFinish])
      | some b =>
        obtain ⟨p, q⟩ := b
        have heq : SolveResult.optimal p q = .optimal x z := hrun
        injection heq with h1 h2
        subst h1
        exact hinv p q rfl
    | cons nv rest =>
      simp only [bbLoop] at hrun
      cases hlp : lpRelax cfg.eps cfg.pivotLimit nv oc k cs with
      | infeasible =>
        simp only [hlp] at hrun
        exact ih rest inc x z hinv hrun
      | unbounded =>
        simp only [hlp] at hrun
        exact ih rest inc x z hinv hrun
      | iterLimit =>
        simp only [hlp] at hrun
        exact absurd hrun (by simp)
      | optimal x' z' =>
        simp only [hlp] at hrun
        cases hpr : pruneByBound cfg.eps inc z' with
        | true =>
          simp only [hpr, if_true] at hrun
          exact ih rest inc x z hinv hrun
        | false =>
          simp only [hpr, if_false] at hrun
          cases hpb : pickBranch (fracCands cfg.eps kinds x') with
          | none =>
            simp only [hpb] at hrun
            refine ih rest _ x z ?_ hrun
            intro p q hpq
            have hx' : fracCands cfg.eps kinds x' = [] :=
              pickBranch_eq_none hpb
            cases inc with
            | none =>
              have heq : some (x', z') = some (p, q) := hpq
              injection heq with heq2
              injection heq2 with h1 h2
              subst h1
              exact hx'
            | some b =>
              obtain ⟨b1, b2⟩ := b
              simp only [betterInc] at hpq
              split at hpq
              · injection hpq with heq2
                injection heq2 with h1 h2
                subst h1
                exact hx'
              · injection hpq with heq2
                injection heq2 with h1 h2
                subst h1
                exact hinv b1 b2 rfl
          | some br =>
            simp only [hpb] at hrun
            exact ih _ inc x z hinv hrun

/-- A Minimize-direction solve reporting Optimal yields an assignment
with no fractional Integer/Binary variable. -/
theorem solveMin_optimal_integral (cfg : Config) (m : Model) (x : List ℚ)
    (z : ℚ) (h : solveMin cfg m = .optimal x z) :
    fracCands cfg.eps (m.vars.map (fun v => v.kind)) x = [] := by
  unfold solveMin at h
  cases hr : rootRelax cfg m with
  | unbounded =>
    simp only [hr] at h
    exact SolveResult.noConfusion h
  | iterLimit =>
    simp only [hr] at h
    exact SolveResult.noConfusion h
  | optimal xx zz =>
    simp only [hr] at h
    exact bbLoop_optimal_integral cfg m.objCoeffs m.objConst m.constraints _
      cfg.nodeLimit [m.vars] none x z
      (fun p q hpq => Option.noConfusion hpq) h
  | infeasible =>
    simp only [hr] at h
    exact bbLoop_optimal_integral cfg m.objCoeffs m.objConst m.constraints _
      cfg.nodeLimit [m.vars] none x z
      (fun p q hpq => Option.noConfusion hpq) h

/-- Claim C1: for every Model solved to status Optimal, every variable
of Integer or Binary domain kind has a reported value within ε of some
integer (in the source program all food variables are Integer, so every
reported serving count in an Optimal result is within ε of an
integer). -/
theorem optimal_values_integral (cfg : Config) (m : Model) (x : List ℚ)
    (z : ℚ) (h : solve cfg m = .optimal x z) :
    ∀ p ∈ (m.vars.map (fun v => v.kind)).zip x,
      p.1 ≠ .Continuous → ∃ n : ℤ, |p.2 - (n : ℚ)| ≤ cfg.eps := by
  have hfc : fracCands cfg.eps (m.vars.map (fun v => v.kind)) x = [] := by
    cases hd : m.direction with
    | Minimize =>
      exact solveMin_optimal_integral cfg m x z (by simpa [solve, hd] using h)
    | Maximize =>
      have hs : negResult (solveMin cfg (normDir m)) = .optimal x z := by
        simpa [solve, hd] using h
      cases hsm : solveMin cfg (normDir m) with
      | optimal x' z' =>
        rw [hsm] at hs
        have heq : SolveResult.optimal x' (-z') = .optimal x z := hs
        injection heq with h1 h2
        rw [← h1]
        have hv : (normDir m).vars = m.vars := by simp [normDir, hd]
        have hres := solveMin_optimal_integral cfg (normDir m) x' z' hsm
        rw [hv] at hres
        exact hres
      | infeasible =>
        rw [hsm] at hs
        exact absurd hs (by simp [negResult])
      | unbounded =>
        rw [hsm] at hs
        exact absurd hs (by simp [negResult])
      | suboptimal r i =>
        rw [hsm] at hs
        exact absurd hs (by simp [negResult])
  intro p hp hk
  exact ⟨nearestInt p.2, fracCands_nil_integral hfc p hp hk⟩

/-- Witness for C1: the Integer model minimizing x subject to x ≥ 3/2
solves to Optimal with x = 2, and the theorem instantiates to an
integer within distance 0 of that value. -/
theorem optimal_values_integral_witness :
    ∃ n : ℤ, |(2 : ℚ) - (n : ℚ)| ≤ exactCfg.eps :=
  optimal_values_integral exactCfg intTestModel [2] 2
    (by with_unfolding_all decide) (.Integer, 2)
    (by with_unfolding_all decide) (by simp)

end LinProg
